import Mathlib

/-!
Shallow embedding of `teneva/core/stat.py` (CDF helpers and TT-tensor sampling)
and of the benchmark demo evaluators (`demo_func_ackley.py`, `demo_func_grienwank.py`,
`func_demo_alpine.py`).

Numpy float arrays are modelled over `ℚ` (exact arithmetic); 1-D arrays are `List ℚ`,
2-D arrays lists of rows, 3-D TT-cores lists of `(n × r2)` slices.  The ambient
process-wide random generator is modelled by an entropy source `rng : Nat → Nat`
together with a counter of consumed draws; `np.random.shuffle` by a permutation-valued
parameter.  Transcendental primitives (`np.sqrt`, `np.log`, ...) are uninterpreted
field operations collected in `MathOps`.  Python exceptions become an explicit
error type.
-/

namespace Teneva

/-- A 1-D numpy array of floats. -/
abbrev Vec := List ℚ

/-- A 2-D numpy array, as its list of rows. -/
abbrev Mat := List Vec

/-- A 3-D TT-core `G` of shape `(r1, n, r2)`: `G[i1][i][i2]`. -/
abbrev Core := List Mat

/-- The Python errors observable from `teneva.core.stat`. -/
inductive PyErr where
  /-- `NameError`: evaluation of an unbound name. -/
  | nameError (name : String)
  /-- `TypeError`: a call passing a keyword argument the callee does not accept. -/
  | typeErrorKw (name : String)
  /-- `IndexError`: sequence index out of range. -/
  | indexError
  /-- The `ValueError` raised by `np.random.choice` when the probability vector is
  degenerate (division of the weights by a zero total yields NaN entries). -/
  | degenerateDistribution
  /-- `ValueError('Can not generate the required number of samples')`. -/
  | insufficientUniqueSamples
  /-- A `ValueError` from a numpy shape mismatch (reshape/einsum). -/
  | shapeError
  deriving DecidableEq

/-- Embeds `np.sum(Q**2, axis=1)`: the squared Euclidean norm of each row. -/
def rowNorms2 (Q : Mat) : Vec := Q.map fun row => (row.map fun t => t * t).sum

/-- Embeds `np.interp t (range n) fp` with integer nodes `0, …, fp.length - 1`:
piecewise-linear interpolation, constant extrapolation outside the node range
(this includes numpy's single-node special case, which returns `fp[0]`). -/
def npInterp (fp : Vec) (t : ℚ) : ℚ :=
  if fp.length ≤ 1 then fp.headI
  else if t ≤ 0 then fp.headI
  else if ((fp.length : ℚ) - 1) ≤ t then fp.getLastI
  else
    let j := (Int.floor t).toNat
    fp.getD j 0 + (t - (j : ℚ)) * (fp.getD (j + 1) 0 - fp.getD j 0)

/-- The `(i1, i2)`-fiber of a core along its mode axis: `G[i1, :, i2]`. -/
def fiber (G : Core) (i1 i2 : Nat) : Vec :=
  (G.getD i1 []).map fun row => row.getD i2 0

/-- One entry `G[i1, i, i2]` of a core. -/
def coreEntry (G : Core) (i1 i i2 : Nat) : ℚ :=
  ((G.getD i1 []).getD i []).getD i2 0

/-- Embeds `stat._extend_core(G, n)`: rescale the mode axis of `G` to `n` points, each
`(i1, i2)`-fiber being `np.interp`-olated at the query points
`np.arange(n) * (nold - 1) / (n - 1)`.  (The callers in scope only evaluate the
query expression with `n ≥ 2` or with `n = nold = 1`, where `0/0` and numpy's
single-node path agree with the `ℚ` convention used here.) -/
def _extend_core (G : Core) (n : Nat) : Core :=
  let r1 := G.length
  let nold := G.headI.length
  let r2 := G.headI.headI.length
  (List.range r1).map fun i1 : Nat =>
    (List.range n).map fun i : Nat =>
      (List.range r2).map fun i2 : Nat =>
        npInterp (fiber G i1 i2) ((i : ℚ) * ((nold : ℚ) - 1) / ((n : ℚ) - 1))

/-- Embeds `G.reshape(n, r2)` for a 3-D core: C-order flatten, then chunk into `n` rows of
`r2` entries; a `ValueError` if the element counts disagree. -/
def reshape2 (G : Core) (n r2 : Nat) : Except PyErr Mat :=
  let flat := (G.map fun sl => sl.flatten).flatten
  if flat.length = n * r2 then
    .ok ((List.range n).map fun i : Nat => (List.range r2).map fun j : Nat => flat.getD (i * r2 + j) 0)
  else .error .shapeError

/-- Modelled from the spec: `teneva._range` is repository code not under `src/`.
Per §4.3 it supplies the native index range `{0, …, n − 1}` as a column, so that
`I[ind, :]` selects chosen indices and `I1[:, 0]` reads them back. -/
def _range (n : Nat) : Mat := (List.range n).map fun i : Nat => [(i : ℚ)]

/-- The support of the categorical distribution obtained by normalizing `w`:
the indices carrying positive weight. -/
def choiceSupport (w : Vec) : List Nat :=
  (List.range w.length).filter fun i : Nat => decide (0 < w.getD i 0)

/-- Embeds `np.random.choice(n, size=1, p = w / w.sum())`.  The possible outcomes are
exactly the indices of positive weight; the entropy source selects one of them and
the draw counter advances by one.  A zero-total weight vector makes the division
produce NaN probabilities, which `np.random.choice` rejects with a `ValueError`. -/
def npChoice1 (rng : Nat → Nat) (k : Nat) (w : Vec) : Except (PyErr × Nat) (Nat × Nat) :=
  let s := choiceSupport w
  if s.length = 0 then .error (.degenerateDistribution, k)
  else .ok (s.getD (rng k % s.length) 0, k + 1)

/-- Embeds `np.random.choice(n, size=m, p = w / w.sum(), replace=True)`: `m` independent
draws from the same categorical distribution. -/
def npChoiceN (rng : Nat → Nat) (k : Nat) (w : Vec) (m : Nat) :
    Except (PyErr × Nat) (List Nat × Nat) :=
  let s := choiceSupport w
  if s.length = 0 then .error (.degenerateDistribution, k)
  else .ok ((List.range m).map fun j : Nat => s.getD (rng (k + j) % s.length) 0, k + m)

/-- Embeds `stat._sample_core_first(Q, I, m, thr_n=10)`: per-row squared-norm masses,
normalize, draw `m` row indices with replacement, return the selected rows of `Q`
and of the index table `I`. -/
def _sample_core_first (rng : Nat → Nat) (k : Nat) (Q I : Mat) (m : Nat)
    (thr_n : Nat := 10) : Except (PyErr × Nat) ((Mat × Mat) × Nat) :=
  match npChoiceN rng k (rowNorms2 Q) m with
  | .error e => .error e
  | .ok (ind, kf) => .ok ((ind.map fun i => Q.getD i [], ind.map fun i => I.getD i []), kf)

/-- The first-core preparation of `sample_ind_rand` (source lines 87–95): read the
shape of `Z[0]`, optionally grid-extend it when the bound value of `float_cf` is a
number, and reshape to `(n, r2)`.  `float_cf` here is the *bound value* of the name
(`none` models Python `None`). -/
def firstPrep (float_cf : Option Nat) (G : Core) : Except PyErr Mat :=
  let n := G.headI.length
  let r2 := G.headI.headI.length
  let Gx := match float_cf with
    | none => G
    | some c => _extend_core G (n * c)
  let nx := match float_cf with
    | none => n
    | some c => n * c
  reshape2 Gx nx r2

/-- The first-core stage of `sample_ind_rand` (source lines 87–97): the prepared
`(n, r2)` matrix together with `_sample_core_first` on it and the native index
range (the reshaped matrix has exactly `n` rows, so `Q0.length` is the updated
mode size `n`). -/
def sampleFirst (float_cf : Option Nat) (rng : Nat → Nat) (G : Core) (m : Nat)
    (unique : Bool) (m_fact : Nat) : Except (PyErr × Nat) ((Mat × Mat) × Nat) :=
  match firstPrep float_cf G with
  | .error e => .error (e, 0)
  | .ok Q0 => _sample_core_first rng 0 Q0 (_range Q0.length) (if unique then m_fact * m else m)

/-- Embeds `I = np.empty([I1.shape[0], d]); I[:, 0] = I1[:, 0]` (source lines 98–99):
one `d`-wide row per candidate, column 0 holding the first-core index.  The
uninitialized `np.empty` cells are modelled as zeros; every reachable run overwrites
them before they are read. -/
def initRows (d : Nat) (I1 : Mat) : Mat :=
  I1.map fun row => (List.range d).map fun j : Nat => if j = 0 then row.getD 0 0 else 0

/-- The body of `for im, qm, qnew in zip(I, Qtens, Q)` (source lines 110–115): per
candidate, squared-norm masses of the `(n × r2)` slice, one categorical draw, record
the drawn index in column `di` of the candidate's row (`im[di] = ...` is an
`IndexError` when `di` is out of range) and keep the selected slice row as the new
contraction-state row. -/
def sampleRows (rng : Nat → Nat) (di : Nat) :
    List (Vec × Mat) → Nat → Except (PyErr × Nat) ((Mat × Mat) × Nat)
  | [], k => .ok (([], []), k)
  | (im, qm) :: rest, k =>
    match npChoice1 rng k (rowNorms2 qm) with
    | .error e => .error e
    | .ok (j, k1) =>
      if di < im.length then
        match sampleRows rng di rest k1 with
        | .error e => .error e
        | .ok ((Is, Qs), k2) => .ok ((im.set di (j : ℚ) :: Is, qm.getD j [] :: Qs), k2)
      else .error (.indexError, k1)

/-- One iteration of the dimension loop (source lines 101–115): read the core's
shape, optionally grid-extend, contract the running state against the core
(`np.einsum('kr,riq->kiq', Q, G)`, a `ValueError` if the shared rank dimensions
disagree), then the per-candidate draws.  Rows that `zip` truncation would leave
untouched keep their previous (resp. uninitialized-as-zero) values. -/
def dimStep (float_cf : Option Nat) (rng : Nat → Nat) (di : Nat) (G : Core)
    (I Q : Mat) (k : Nat) : Except (PyErr × Nat) ((Mat × Mat) × Nat) :=
  let n := G.headI.length
  let r2 := G.headI.headI.length
  let Gx := match float_cf with
    | none => G
    | some c => _extend_core G (n * c)
  let nx := match float_cf with
    | none => n
    | some c => n * c
  if Q.all fun row => row.length = Gx.length then
    let Qtens : List Mat := Q.map fun qrow =>
      (List.range nx).map fun i : Nat =>
        (List.range r2).map fun q : Nat =>
          ((List.range Gx.length).map fun r : Nat =>
            qrow.getD r 0 * coreEntry Gx r i q).sum
    match sampleRows rng di (I.zip Qtens) k with
    | .error e => .error e
    | .ok ((I2, Q2), k2) =>
      .ok ((I2 ++ I.drop I2.length,
            Q2 ++ List.replicate (Q.length - Q2.length) (List.replicate r2 0)), k2)
  else .error (.shapeError, k)

/-- The loop `for di, G in enumerate(Z[1:], start=1)`. -/
def dimLoop (float_cf : Option Nat) (rng : Nat → Nat) :
    List (Nat × Core) → Mat → Mat → Nat → Except (PyErr × Nat) ((Mat × Mat) × Nat)
  | [], I, _Q, k => .ok ((I, _Q), k)
  | (di, G) :: rest, I, Q, k =>
    match dimStep float_cf rng di G I Q k with
    | .error e => .error e
    | .ok ((I2, Q2), k2) => dimLoop float_cf rng rest I2 Q2 k2

/-- Lexicographic comparison of rows, the order `np.unique(·, axis=0)` sorts by. -/
def vecLeB : Vec → Vec → Bool
  | [], _ => true
  | _ :: _, [] => false
  | a :: as, b :: bs => if a < b then true else if b < a then false else vecLeB as bs

/-- Embeds `np.unique(I, axis=0)`: the distinct rows of `I`, in lexicographic order. -/
def npUniqueRows (M : Mat) : Mat :=
  List.insertionSort (fun a b => vecLeB a b = true) M.dedup

/-- Embeds `I = I[:m]`, the defensive row-count check, and the grid-rescaling return
(source lines 131–139). -/
def truncReturn (float_cf : Option Nat) (m : Nat) (I : Mat) (k : Nat) :
    Except (PyErr × Nat) (Mat × Nat) :=
  let Im := I.take m
  if Im.length ≠ m then .error (.insufficientUniqueSamples, k)
  else match float_cf with
    | some c => .ok (Im.map fun row => row.map fun t => t / (c : ℚ), k)
    | none => .ok (Im, k)

/-- The post-loop tail of `sample_ind_rand` (source lines 118–139).  On a uniqueness
shortfall within budget, the source re-invokes itself passing `float_cf` as a keyword
argument its own signature does not accept, so the re-invocation raises a
`TypeError` at the call instead of retrying. -/
def sampleTail (float_cf : Option Nat) (shuffle : Mat → Mat) (m : Nat) (unique : Bool)
    (m_fact : Nat) (max_rep : Int) (I : Mat) (k : Nat) :
    Except (PyErr × Nat) (Mat × Nat) :=
  if unique then
    let Iu := npUniqueRows I
    if Iu.length < m then
      if max_rep < 0 ∨ 1000000 < m_fact then .error (.insufficientUniqueSamples, k)
      else .error (.typeErrorKw "float_cf", k)
    else truncReturn float_cf m (shuffle Iu) k
  else truncReturn float_cf m I k

/-- The module `teneva.core.stat` binds no value to the name `float_cf`: the name is
not among the parameters of `sample_ind_rand` and is assigned nowhere in the module,
so the global lookup performed by `if float_cf is not None` fails. -/
def module_float_cf : Option (Option Nat) := none

/-- Embeds `stat.sample_ind_rand(Y, m, unique=True, m_fact=5, max_rep=100)`.

`orth` models the external collaborator `teneva.orthogonalize` (repository code not
under `src/`; only its returned canonical cores `Z` are consumed, the scale is
ignored), `float_cf_env` the module-level binding of the free name `float_cf`
(`none` = unbound, which is the actual module state `module_float_cf`;
`some v` = hypothetically bound to `v`), `rng` the process-wide entropy source with
the number of consumed draws threaded through results and errors, and `shuffle` the
permutation realised by `np.random.shuffle`. -/
def sample_ind_rand (orth : List Core → List Core) (float_cf_env : Option (Option Nat))
    (rng : Nat → Nat) (shuffle : Mat → Mat) (Y : List Core) (m : Nat)
    (unique : Bool := true) (m_fact : Nat := 5) (max_rep : Int := 100) :
    Except (PyErr × Nat) (Mat × Nat) :=
  let d := Y.length
  let Z := orth Y
  if Z = [] then .error (.indexError, 0)
  else
    match float_cf_env with
    | none => .error (.nameError "float_cf", 0)
    | some float_cf =>
      match sampleFirst float_cf rng Z.headI m unique m_fact with
      | .error e => .error e
      | .ok ((_Q, I1), k1) =>
        match dimLoop float_cf rng (List.enumFrom 1 (Z.drop 1)) (initRows d I1) _Q k1 with
        | .error e => .error e
        | .ok ((I, _), k2) => sampleTail float_cf shuffle m unique m_fact max_rep I k2

/-- Embeds `np.linspace a b num` (with `endpoint=True`). -/
def linspace (a b : ℚ) (num : Nat) : Vec :=
  if num = 1 then [a]
  else (List.range num).map fun i : Nat => a + (i : ℚ) * (b - a) / ((num : ℚ) - 1)

/-- Embeds `np.searchsorted(xs, z, side='right')` on the sorted array `xs` (whose head is
the `-np.inf` sentinel, modelled by `⊥`): the number of entries `≤ z`, which is the
right-biased insertion point binary search returns on sorted input. -/
def searchsortedRight (xs : List (WithBot ℚ)) (z : ℚ) : Nat :=
  xs.countP fun a => decide (a ≤ (z : WithBot ℚ))

/-- Embeds `stat.cdf_getter(x)`: sort a copy of the sample, precompute the step heights
`linspace(1/m, 1, m)`, prepend the `-inf` sentinel with height 0, and answer a query
`z` by `y[searchsorted(x, z, 'right') - 1]`. -/
def cdf_getter (x : List ℚ) : ℚ → ℚ :=
  let xs := List.insertionSort (fun a b : ℚ => a ≤ b) x
  let m := x.length
  let y := linspace (1 / (m : ℚ)) 1 m
  let xs1 : List (WithBot ℚ) := ⊥ :: xs.map fun t : ℚ => (t : WithBot ℚ)
  let y1 : Vec := 0 :: y
  fun z => y1.getD (searchsortedRight xs1 z - 1) 0

/-- Abstract interpretations of the transcendental floating-point primitives
(`np.sqrt`, `np.log`, `np.exp`, `np.cos`, `np.sin` are library calls; the embedding
treats them as uninterpreted operations on the scalar field). -/
structure MathOps (α : Type) where
  sqrt : α → α
  log : α → α
  exp : α → α
  cos : α → α
  sin : α → α

/-- The all-identity interpretation, used to instantiate closed witnesses. -/
def idOps {α : Type} : MathOps α := ⟨id, id, id, id, id⟩

/-- Embeds `np.clip t 0 1`. -/
def clip01 {α : Type} [LinearOrderedField α] (t : α) : α := min (max t 0) 1

/-- Embeds `stat.cdf_confidence(x, alpha=0.05)`: the Dvoretzky–Kiefer–Wolfowitz band
`(clip(x - eps, 0, 1), clip(x + eps, 0, 1))` with
`eps = sqrt(log(2/alpha) / (2 * len(x)))`. -/
def cdf_confidence {α : Type} [LinearOrderedField α] (ops : MathOps α)
    (x : List α) (alpha : α) : List α × List α :=
  let eps := ops.sqrt (ops.log (2 / alpha) / (2 * (x.length : α)))
  (x.map fun t => clip01 (t - eps), x.map fun t => clip01 (t + eps))

/-- Embeds `DemoFuncAckley._calc(x)` with constructor parameters `d, a, b, c`. -/
def ackley_calc {α : Type} [LinearOrderedField α] (ops : MathOps α) (d : Nat)
    (a b c : α) (x : List α) : α :=
  let y1 := ops.sqrt ((x.map fun t => t * t).sum / (d : α))
  let y1b := -a * ops.exp (-b * y1)
  let y2 := (x.map fun t => ops.cos (c * t)).sum
  let y2b := -ops.exp (y2 / (d : α))
  let y3 := a + ops.exp 1
  y1b + y2b + y3

/-- Embeds `DemoFuncAckley._comp(X)`: the batched pipeline with `axis=1` reductions and a
final broadcast addition of the scalar `y3`. -/
def ackley_comp {α : Type} [LinearOrderedField α] (ops : MathOps α) (d : Nat)
    (a b c : α) (X : List (List α)) : List α :=
  let y1 := (X.map fun row => ops.sqrt ((row.map fun t => t * t).sum / (d : α))).map
    fun v => -a * ops.exp (-b * v)
  let y2 := (X.map fun row => (row.map fun t => ops.cos (c * t)).sum).map
    fun v => -ops.exp (v / (d : α))
  let y3 := a + ops.exp 1
  (List.zipWith (fun p q => p + q) y1 y2).map fun v => v + y3

/-- Embeds `np.sqrt(np.arange(d) + 1)`, the per-coordinate divisors of the Grienwank
product term. -/
def grienwankDiv {α : Type} [LinearOrderedField α] (ops : MathOps α) (d : Nat) :
    List α :=
  (List.range d).map fun j : Nat => ops.sqrt ((j : α) + 1)

/-- Embeds `DemoFuncGrienwank._calc(x)`. -/
def grienwank_calc {α : Type} [LinearOrderedField α] (ops : MathOps α) (d : Nat)
    (x : List α) : α :=
  let y1 := (x.map fun t => t * t).sum / 4000
  let y2 := -(List.zipWith (fun xi w => ops.cos (xi / w)) x (grienwankDiv ops d)).prod
  let y3 : α := 1
  y1 + y2 + y3

/-- Embeds `DemoFuncGrienwank._comp(X)`: `axis=1` reductions over the broadcast matrix. -/
def grienwank_comp {α : Type} [LinearOrderedField α] (ops : MathOps α) (d : Nat)
    (X : List (List α)) : List α :=
  let y1 := X.map fun row => (row.map fun t => t * t).sum / 4000
  let y2 := (X.map fun row =>
    (List.zipWith (fun xi w => ops.cos (xi / w)) row (grienwankDiv ops d)).prod).map
    fun v => -v
  let y3 : α := 1
  (List.zipWith (fun p q => p + q) y1 y2).map fun v => v + y3

/-- Embeds `FuncDemoAlpine._calc(x)` with the optional shift `dy`. -/
def alpine_calc {α : Type} [LinearOrderedField α] (ops : MathOps α) (dy : α)
    (x : List α) : α :=
  (x.map fun t => |t * ops.sin t + (1 / 10) * t|).sum + dy

/-- Embeds `FuncDemoAlpine._comp(X)`: the `axis=1` reduction plus the broadcast shift. -/
def alpine_comp {α : Type} [LinearOrderedField α] (ops : MathOps α) (dy : α)
    (X : List (List α)) : List α :=
  (X.map fun row => (row.map fun t => |t * ops.sin t + (1 / 10) * t|).sum).map
    fun v => v + dy

/-- The spec-side interpolant of §4.1: the piecewise-linear function through the
samples `fp` placed at the integer nodes `0, …, len(fp) − 1`; on each segment
`[j, j+1]` it is the convex combination of the two neighbouring samples, and it is
clamped to the end samples outside the node range. -/
def linearInterpSpec (fp : Vec) (t : ℚ) : ℚ :=
  if fp = [] then 0
  else if t ≤ 0 then fp.headI
  else if ((fp.length : ℚ) - 1) ≤ t then fp.getLastI
  else
    let j := (Int.floor t).toNat
    (1 - (t - (j : ℚ))) * fp.getD j 0 + (t - (j : ℚ)) * fp.getD (j + 1) 0

/-- Rectangularity of a core at shape `(r1, n, r2)` (intrinsic to a numpy ndarray,
a side condition on the nested-list model). -/
def WFCore (G : Core) (r1 n r2 : Nat) : Prop :=
  G.length = r1 ∧ ∀ sl ∈ G, sl.length = n ∧ ∀ row ∈ sl, row.length = r2

lemma getD_range_map {β : Type} (f : Nat → β) (n i : Nat) (d : β) (h : i < n) :
    (((List.range n).map f).getD i d) = f i := by
  rw [List.getD_eq_getElem _ _ (by simpa using h)]
  simp

lemma getLastI_eq_getD : ∀ (fp : Vec), fp ≠ [] → fp.getLastI = fp.getD (fp.length - 1) 0
  | [_], _ => rfl
  | [_, _], _ => rfl
  | _ :: _ :: c :: l, _ => by
    have ih := getLastI_eq_getD (c :: l) (by simp)
    simpa [List.getLastI, Nat.add_sub_cancel] using ih

lemma headI_eq_getD (fp : Vec) (h : fp ≠ []) : fp.headI = fp.getD 0 0 := by
  cases fp with
  | nil => exact absurd rfl h
  | cons a l => rfl

/-- Evaluating `np.interp` at an integer node returns the stored sample. -/
lemma npInterp_natCast (fp : Vec) (i : Nat) (h : i < fp.length) :
    npInterp fp (i : ℚ) = fp.getD i 0 := by
  have hfp : fp ≠ [] := by
    intro hc; rw [hc] at h; simp at h
  unfold npInterp
  by_cases hl : fp.length ≤ 1
  · have hi0 : i = 0 := by omega
    rw [if_pos hl, hi0, headI_eq_getD fp hfp]
  · rw [if_neg hl]
    by_cases hz : (i : ℚ) ≤ 0
    · have hi0 : i = 0 := by exact_mod_cast le_antisymm hz (by positivity)
      rw [if_pos hz, hi0, headI_eq_getD fp hfp]
    · rw [if_neg hz]
      by_cases hlast : ((fp.length : ℚ) - 1) ≤ (i : ℚ)
      · have hile : (fp.length : ℚ) ≤ (i : ℚ) + 1 := by linarith
        have hge : fp.length - 1 ≤ i := by
          have hcast : (fp.length : ℚ) ≤ ((i + 1 : Nat) : ℚ) := by push_cast; linarith
          have hle2 := Nat.cast_le.mp hcast
          omega
        have hi : i = fp.length - 1 := by omega
        rw [if_pos hlast, hi, getLastI_eq_getD fp hfp]
      · rw [if_neg hlast]
        have hfl : Int.floor ((i : ℚ)) = (i : ℤ) := Int.floor_natCast i
        simp only [hfl, Int.toNat_natCast]
        ring_nf

/-- The embedded `np.interp` coincides with the spec-side piecewise-linear
interpolant everywhere. -/
lemma npInterp_eq_spec (fp : Vec) (t : ℚ) : npInterp fp t = linearInterpSpec fp t := by
  unfold npInterp linearInterpSpec
  by_cases hnil : fp = []
  · subst hnil
    norm_num
    rfl
  · simp only [if_neg hnil]
    by_cases hl : fp.length ≤ 1
    · simp only [if_pos hl]
      by_cases hz : t ≤ 0
      · simp only [if_pos hz]
      · simp only [if_neg hz]
        have h1 : fp.length = 1 := by
          have : 0 < fp.length := List.length_pos.mpr hnil
          omega
        have hle : ((fp.length : ℚ) - 1) ≤ t := by rw [h1]; push_cast; linarith [lt_of_not_le hz]
        simp only [if_pos hle, getLastI_eq_getD fp hnil, headI_eq_getD fp hnil]
        rw [h1]
    · simp only [if_neg hl]
      by_cases hz : t ≤ 0
      · simp only [if_pos hz]
      · simp only [if_neg hz]
        by_cases hlast : ((fp.length : ℚ) - 1) ≤ t
        · simp only [if_pos hlast]
        · simp only [if_neg hlast]
          ring

lemma WFCore_headI_len {G : Core} {r1 n r2 : Nat} (h : WFCore G r1 n r2) (hr : G ≠ []) :
    G.headI.length = n := by
  cases G with
  | nil => exact absurd rfl hr
  | cons sl rest => exact (h.2 sl (List.mem_cons_self sl rest)).1

lemma WFCore_headI_headI_len {G : Core} {r1 n r2 : Nat} (h : WFCore G r1 n r2)
    (hr : G ≠ []) (hn : 1 ≤ n) : G.headI.headI.length = r2 := by
  cases G with
  | nil => exact absurd rfl hr
  | cons sl rest =>
    obtain ⟨hsl, hrow⟩ := h.2 sl (List.mem_cons_self sl rest)
    have hslne : sl ≠ [] := by
      intro hc; rw [hc] at hsl; simp at hsl; omega
    cases sl with
    | nil => exact absurd rfl hslne
    | cons row rows => exact hrow row (List.mem_cons_self row rows)

/-- The `fiber` accessor reads the mode fiber: its `i`-th entry is the corresponding core entry. -/
lemma fiber_getD {G : Core} {r1 n r2 : Nat} (h : WFCore G r1 n r2)
    (i1 i i2 : Nat) (hi1 : i1 < r1) (hi : i < n) :
    (fiber G i1 i2).getD i 0 = coreEntry G i1 i i2 := by
  have hlen : G.length = r1 := h.1
  have hiG : i1 < G.length := by omega
  have hsl : G.getD i1 [] = G[i1] := List.getD_eq_getElem _ _ hiG
  have hmem : G[i1] ∈ G := List.getElem_mem _
  have hsllen : (G[i1]).length = n := (h.2 _ hmem).1
  unfold fiber coreEntry
  rw [hsl, List.getD_eq_getElem _ _ (by simpa [hsllen] using hi),
    List.getD_eq_getElem _ _ (by omega : i < (G[i1]).length)]
  simp

lemma fiber_length {G : Core} {r1 n r2 : Nat} (h : WFCore G r1 n r2)
    (i1 i2 : Nat) (hi1 : i1 < r1) : (fiber G i1 i2).length = n := by
  have hlen : G.length = r1 := h.1
  have hiG : i1 < G.length := by omega
  have hsl : G.getD i1 [] = G[i1] := List.getD_eq_getElem _ _ hiG
  unfold fiber
  rw [hsl]
  simpa using (h.2 _ (List.getElem_mem _)).1

/-- C8: for a rectangular core of shape `(r1, n_old, r2)` and a target mode size
`n > 1`, `_extend_core` returns a core of shape `(r1, n, r2)` whose `(i1, i2)`-fiber
holds, at each mode position `i`, the linear interpolation of the original `n_old`
samples evaluated at the evenly spaced query point `i * (n_old - 1) / (n - 1)`
spanning `[0, n_old - 1]`; the transform is a pure function of `G`. -/
theorem C8_extend_core_interpolates (G : Core) (r1 nold r2 n : Nat)
    (hG : WFCore G r1 nold r2) (hold : 1 ≤ nold) (hn : 1 < n) :
    WFCore (_extend_core G n) r1 n r2 ∧
    ∀ i1 < r1, ∀ i < n, ∀ i2 < r2,
      coreEntry (_extend_core G n) i1 i i2 =
        linearInterpSpec (fiber G i1 i2) ((i : ℚ) * ((nold : ℚ) - 1) / ((n : ℚ) - 1)) := by
  rcases G with _ | ⟨sl, rest⟩
  · have hr1 : r1 = 0 := by simpa using hG.1.symm
    subst hr1
    refine ⟨⟨by simp [_extend_core], by simp [_extend_core]⟩, ?_⟩
    intro i1 hi1; omega
  · set G := sl :: rest with hGdef
    have hne : G ≠ [] := by simp [hGdef]
    have hn1 : G.headI.length = nold := WFCore_headI_len hG hne
    have hr2 : G.headI.headI.length = r2 := WFCore_headI_headI_len hG hne hold
    constructor
    · refine ⟨by simpa [_extend_core] using hG.1, ?_⟩
      intro sl2 hsl2
      simp only [_extend_core, List.mem_map, List.mem_range] at hsl2
      obtain ⟨i1, hi1, rfl⟩ := hsl2
      refine ⟨by simp, ?_⟩
      intro row hrow
      simp only [List.mem_map, List.mem_range] at hrow
      obtain ⟨i, hi, rfl⟩ := hrow
      simp [hr2]
    · intro i1 hi1 i hi i2 hi2
      have hi1' : i1 < G.length := by rw [hG.1]; exact hi1
      unfold coreEntry _extend_core
      rw [getD_range_map _ _ _ _ hi1', hn1, hr2,
        getD_range_map _ _ _ _ hi, getD_range_map _ _ _ _ hi2]
      exact npInterp_eq_spec _ _

/-- C8 witness: a concrete `(1, 2, 1)`-core extended to mode size 4; position 1 of
the fiber is the interpolant at query point `1/3`. -/
theorem C8_extend_core_interpolates_witness :
    coreEntry (_extend_core [[[1], [0]]] 4) 0 1 0 =
      linearInterpSpec (fiber [[[1], [0]]] 0 0) (((1 : Nat) : ℚ) * (((2 : Nat) : ℚ) - 1) / (((4 : Nat) : ℚ) - 1)) :=
  (C8_extend_core_interpolates [[[1], [0]]] 1 2 1 4
      (by constructor
          · rfl
          · intro sl hsl
            simp at hsl
            subst hsl
            constructor
            · rfl
            · intro row hrow
              simp at hrow
              rcases hrow with h | h <;> simp [h])
      (by norm_num) (by norm_num)).2 0 (by norm_num) 1 (by norm_num) 0 (by norm_num)

/-- C9: applying `_extend_core` with the native mode size returns the core
unchanged, entry for entry (interpolation at the native sample points is exact). -/
theorem C9_extend_core_identity (G : Core) (r1 nold r2 : Nat)
    (hG : WFCore G r1 nold r2) (hold : 1 ≤ nold) :
    _extend_core G nold = G := by
  rcases G with _ | ⟨sl, rest⟩
  · simp [_extend_core]
  · set G := sl :: rest with hGdef
    have hne : G ≠ [] := by simp [hGdef]
    have hn1 : G.headI.length = nold := WFCore_headI_len hG hne
    have hr2 : G.headI.headI.length = r2 := WFCore_headI_headI_len hG hne hold
    apply List.ext_getElem (by simp [_extend_core])
    intro i1 h1 h2
    have hi1 : i1 < r1 := by rw [← hG.1]; exact h2
    have hslice : G[i1] ∈ G := List.getElem_mem _
    obtain ⟨hslen, hrows⟩ := hG.2 _ hslice
    have hext : (_extend_core G nold)[i1] =
        (List.range nold).map fun i : Nat =>
          (List.range r2).map fun i2 : Nat =>
            npInterp (fiber G i1 i2) ((i : ℚ) * ((nold : ℚ) - 1) / ((nold : ℚ) - 1)) := by
      simp [_extend_core, hn1, hr2]
    rw [hext]
    apply List.ext_getElem (by simpa using hslen.symm)
    intro i h3 h4
    have hi : i < nold := by simpa using h3
    have hrow : G[i1][i] ∈ G[i1] := List.getElem_mem _
    have hrlen : G[i1][i].length = r2 := hrows _ hrow
    rw [List.getElem_map, List.getElem_range]
    apply List.ext_getElem (by simpa using hrlen.symm)
    intro i2 h5 h6
    have hi2 : i2 < r2 := by simpa using h5
    rw [List.getElem_map, List.getElem_range]
    have ht : ((i : ℚ) * ((nold : ℚ) - 1) / ((nold : ℚ) - 1)) = (i : ℚ) := by
      by_cases h1old : nold = 1
      · subst h1old
        have hi0 : i = 0 := by omega
        subst hi0
        norm_num
      · have : ((nold : ℚ) - 1) ≠ 0 := by
          have : (1 : ℚ) < (nold : ℚ) := by exact_mod_cast (by omega : 1 < nold)
          linarith
        field_simp
    rw [ht, npInterp_natCast _ _ (by rw [fiber_length hG i1 i2 hi1]; exact hi),
      fiber_getD hG i1 i i2 hi1 hi]
    unfold coreEntry
    rw [List.getD_eq_getElem _ _ (by omega : i1 < G.length),
      List.getD_eq_getElem _ _ (by omega : i < G[i1].length),
      List.getD_eq_getElem _ _ (by omega : i2 < G[i1][i].length)]

/-- C9 witness: the concrete `(1, 2, 1)`-core is returned unchanged at its native
mode size 2. -/
theorem C9_extend_core_identity_witness : _extend_core [[[1], [0]]] 2 = [[[1], [0]]] :=
  C9_extend_core_identity [[[1], [0]]] 1 2 1
    (by constructor
        · rfl
        · intro sl hsl
          simp at hsl
          subst hsl
          constructor
          · rfl
          · intro row hrow
            simp at hrow
            rcases hrow with h | h <;> simp [h])
    (by norm_num)

lemma clip01_nonneg {α : Type} [LinearOrderedField α] (t : α) : 0 ≤ clip01 t :=
  le_min (le_max_right t 0) zero_le_one

lemma clip01_le_one {α : Type} [LinearOrderedField α] (t : α) : clip01 t ≤ 1 :=
  min_le_right _ _

/-- C7: for a non-empty array `x` of CDF values and `alpha ∈ (0,1)`,
`cdf_confidence` returns exactly the pair `(clip(x - eps, 0, 1), clip(x + eps, 0, 1))`
computed pointwise with the Dvoretzky–Kiefer–Wolfowitz half-width
`eps = sqrt(log(2/alpha) / (2 m))`, `m = len(x)`; both arrays have the same length
as `x` and every entry lies in `[0, 1]`. -/
theorem C7_cdf_confidence_dkw {α : Type} [LinearOrderedField α] (ops : MathOps α)
    (x : List α) (alpha : α) (hx : x ≠ []) (h0 : 0 < alpha) (h1 : alpha < 1) :
    cdf_confidence ops x alpha =
      (x.map fun t => clip01 (t - ops.sqrt (ops.log (2 / alpha) / (2 * (x.length : α)))),
       x.map fun t => clip01 (t + ops.sqrt (ops.log (2 / alpha) / (2 * (x.length : α))))) ∧
    (cdf_confidence ops x alpha).1.length = x.length ∧
    (cdf_confidence ops x alpha).2.length = x.length ∧
    (∀ v ∈ (cdf_confidence ops x alpha).1, 0 ≤ v ∧ v ≤ 1) ∧
    (∀ v ∈ (cdf_confidence ops x alpha).2, 0 ≤ v ∧ v ≤ 1) := by
  refine ⟨rfl, by simp [cdf_confidence], by simp [cdf_confidence], ?_, ?_⟩ <;>
  · intro v hv
    simp only [cdf_confidence, List.mem_map] at hv
    obtain ⟨t, _, rfl⟩ := hv
    exact ⟨clip01_nonneg _, clip01_le_one _⟩

/-- C7 witness: the theorem applied to the concrete sample `[1/2]` at `alpha = 1/2`
over `ℚ` with the identity interpretation of the primitives. -/
theorem C7_cdf_confidence_dkw_witness :
    (cdf_confidence (idOps : MathOps ℚ) [1/2] (1/2)).1.length = 1 ∧
    ∀ v ∈ (cdf_confidence (idOps : MathOps ℚ) [1/2] (1/2)).1, 0 ≤ v ∧ v ≤ 1 :=
  ⟨((C7_cdf_confidence_dkw (idOps : MathOps ℚ) [1/2] (1/2) (by simp) (by norm_num)
      (by norm_num)).2.1).trans rfl,
   (C7_cdf_confidence_dkw (idOps : MathOps ℚ) [1/2] (1/2) (by simp) (by norm_num)
      (by norm_num)).2.2.2.1⟩

lemma searchsortedRight_bot_cons (xs : List ℚ) (z : ℚ) :
    searchsortedRight (⊥ :: xs.map fun t : ℚ => (t : WithBot ℚ)) z =
      1 + xs.countP fun t => decide (t ≤ z) := by
  unfold searchsortedRight
  rw [List.countP_cons_of_pos _ _ (by simp), List.countP_map]
  have : ((fun a => decide (a ≤ (z : WithBot ℚ))) ∘ fun t : ℚ => (t : WithBot ℚ)) =
      fun t : ℚ => decide (t ≤ z) := by
    funext t
    simp [WithBot.coe_le_coe]
  rw [this, Nat.add_comm]

/-- The step-height table returns `c / m` at index `c ≤ m`. -/
lemma linspace_table_getD (m c : Nat) (hm : 1 ≤ m) (hc : c ≤ m) :
    ((0 : ℚ) :: linspace (1 / (m : ℚ)) 1 m).getD c 0 = (c : ℚ) / (m : ℚ) := by
  cases c with
  | zero => simp
  | succ c' =>
    show (linspace (1 / (m : ℚ)) 1 m).getD c' 0 = _
    unfold linspace
    by_cases hm1 : m = 1
    · subst hm1
      have hc0 : c' = 0 := by omega
      subst hc0
      norm_num
    · rw [if_neg hm1, getD_range_map _ _ _ _ (by omega : c' < m)]
      have hmQ : (m : ℚ) ≠ 0 := by
        exact_mod_cast (by omega : m ≠ 0)
      have hm1Q : (m : ℚ) - 1 ≠ 0 := by
        have : (1 : ℚ) < (m : ℚ) := by exact_mod_cast (by omega : 1 < m)
        linarith
      field_simp
      ring

/-- The CDF getter evaluates to (number of sample points `≤ z`) / m. -/
lemma cdf_getter_eq_countP (x : List ℚ) (hx : x ≠ []) (z : ℚ) :
    cdf_getter x z = ((x.countP fun t => decide (t ≤ z) : Nat) : ℚ) / (x.length : ℚ) := by
  simp only [cdf_getter]
  rw [searchsortedRight_bot_cons, Nat.add_sub_cancel_left,
    (List.perm_insertionSort (fun a b : ℚ => a ≤ b) x).countP_eq]
  exact linspace_table_getD x.length _ (by
      have : 0 < x.length := List.length_pos.mpr hx
      omega)
    (List.countP_le_length _)

/-- C6: for every non-empty sample `x` of size `m`, `cdf_getter x` is a pure,
reusable step function `F` with `F z = (number of sample points ≤ z) / m`, which is
non-decreasing and equals 0 strictly below the minimum sample point; in particular
for `x = [0.1, 0.5, 0.9]`: `F 0.5 = 2/3`, `F 0.05 = 0`, `F 1.0 = 1`. -/
theorem C6_cdf_getter_empirical :
    (∀ x : List ℚ, x ≠ [] →
      (∀ z, cdf_getter x z = ((x.countP fun t => decide (t ≤ z) : Nat) : ℚ) / (x.length : ℚ)) ∧
      (∀ z w, z ≤ w → cdf_getter x z ≤ cdf_getter x w) ∧
      (∀ z, (∀ t ∈ x, z < t) → cdf_getter x z = 0)) ∧
    cdf_getter [1/10, 1/2, 9/10] (1/2) = 2/3 ∧
    cdf_getter [1/10, 1/2, 9/10] (1/20) = 0 ∧
    cdf_getter [1/10, 1/2, 9/10] 1 = 1 := by
  constructor
  · intro x hx
    have hm : (0 : ℚ) < (x.length : ℚ) := by
      exact_mod_cast List.length_pos.mpr hx
    refine ⟨cdf_getter_eq_countP x hx, ?_, ?_⟩
    · intro z w hzw
      rw [cdf_getter_eq_countP x hx z, cdf_getter_eq_countP x hx w]
      rw [div_le_div_iff_of_pos_right hm]
      exact_mod_cast List.countP_mono_left fun t _ ht =>
        decide_eq_true (le_trans (of_decide_eq_true ht) hzw)
    · intro z hz
      rw [cdf_getter_eq_countP x hx z]
      have : (x.countP fun t => decide (t ≤ z)) = 0 := by
        rw [List.countP_eq_zero]
        intro t ht
        simpa using not_le_of_lt (hz t ht)
      rw [this]
      simp
  · refine ⟨?_, ?_, ?_⟩ <;>
      norm_num [cdf_getter, linspace, searchsortedRight, List.countP, List.countP.go,
        List.insertionSort, List.orderedInsert, List.range_succ]

/-- C6 witness: the count/m characterization applied at the concrete sample
`[0.1, 0.5, 0.9]` and query `0.5`. -/
theorem C6_cdf_getter_empirical_witness :
    cdf_getter [1/10, 1/2, 9/10] (1/2) =
      ((([1/10, 1/2, 9/10] : List ℚ).countP fun t => decide (t ≤ 1/2) : Nat) : ℚ) /
        (([1/10, 1/2, 9/10] : List ℚ).length : ℚ) :=
  (C6_cdf_getter_empirical.1 [1/10, 1/2, 9/10] (by simp)).1 (1/2)

/-- C10: for each of the benchmark evaluators (Ackley, Grienwank, Alpine), the
batched `_comp` agrees row-wise with the scalar `_calc`: the `i`-th entry of
`_comp X` is `_calc` of the `i`-th row of `X`.  Both are pure functions of the point
and the fixed constructor parameters `(d, a, b, c, dy)` only (and of the abstract
interpretations of the transcendental primitives). -/
theorem C10_demo_comp_eq_calc {α : Type} [LinearOrderedField α] (ops : MathOps α)
    (d : Nat) (a b c dy : α) (X : List (List α)) (i : Nat) (hi : i < X.length)
    (hrect : ∀ row ∈ X, row.length = d) :
    (ackley_comp ops d a b c X).getD i 0 = ackley_calc ops d a b c (X.getD i []) ∧
    (grienwank_comp ops d X).getD i 0 = grienwank_calc ops d (X.getD i []) ∧
    (alpine_comp ops dy X).getD i 0 = alpine_calc ops dy (X.getD i []) := by
  have hXi : X.getD i [] = X[i] := List.getD_eq_getElem _ _ hi
  refine ⟨?_, ?_, ?_⟩
  · have hlen : i < (ackley_comp ops d a b c X).length := by
      simp [ackley_comp]
      omega
    rw [List.getD_eq_getElem _ _ hlen, hXi]
    simp [ackley_comp, ackley_calc]
  · have hlen : i < (grienwank_comp ops d X).length := by
      simp [grienwank_comp]
      omega
    rw [List.getD_eq_getElem _ _ hlen, hXi]
    simp [grienwank_comp, grienwank_calc]
  · have hlen : i < (alpine_comp ops dy X).length := by
      simp [alpine_comp]
      omega
    rw [List.getD_eq_getElem _ _ hlen, hXi]
    simp [alpine_comp, alpine_calc]

/-- C10 witness: the agreement at the concrete batch `X = [[2]]` in dimension 1,
row 0, with concrete parameters. -/
theorem C10_demo_comp_eq_calc_witness :
    (ackley_comp (idOps : MathOps ℚ) 1 20 (1/5) 6 [[2]]).getD 0 0 =
      ackley_calc (idOps : MathOps ℚ) 1 20 (1/5) 6 (([[2]] : List (List ℚ)).getD 0 []) ∧
    (grienwank_comp (idOps : MathOps ℚ) 1 [[2]]).getD 0 0 =
      grienwank_calc (idOps : MathOps ℚ) 1 (([[2]] : List (List ℚ)).getD 0 []) ∧
    (alpine_comp (idOps : MathOps ℚ) 0 [[2]]).getD 0 0 =
      alpine_calc (idOps : MathOps ℚ) 0 (([[2]] : List (List ℚ)).getD 0 []) :=
  C10_demo_comp_eq_calc (idOps : MathOps ℚ) 1 20 (1/5) 6 0 [[2]] 0 (by norm_num)
    (by intro row hrow; simp at hrow; simp [hrow])

/-- C1: `sample_ind_rand` reads the grid-extension control name `float_cf`, which is
neither among its parameters nor defined anywhere in the module
(`module_float_cf = none`); consequently, whenever the orthogonalized tensor is
non-empty (so that the preceding `Z[0]` access succeeds), evaluation raises
`NameError('float_cf')` at the first grid-extension check, with the draw counter
still at 0 — before any random draw, for every input and every entropy source. -/
theorem C1_float_cf_undefined (orth : List Core → List Core) (rng : Nat → Nat)
    (shuffle : Mat → Mat) (Y : List Core) (m : Nat) (unique : Bool) (m_fact : Nat)
    (max_rep : Int) (h : orth Y ≠ []) :
    sample_ind_rand orth module_float_cf rng shuffle Y m unique m_fact max_rep =
      .error (.nameError "float_cf", 0) := by
  simp [sample_ind_rand, module_float_cf, h]

/-- C1 witness: the undefined-name failure on a concrete one-core tensor, with the
identity orthogonalizer. -/
theorem C1_float_cf_undefined_witness :
    sample_ind_rand id module_float_cf (fun _ => 0) id [[[[1], [0]]]] 3 true 5 100 =
      .error (.nameError "float_cf", 0) :=
  C1_float_cf_undefined id (fun _ => 0) id [[[[1], [0]]]] 3 true 5 100 (by simp)

/-- C4: the retry-exhaustion contract is broken by the `float_cf` slip.  On the
synthetic tensor with exactly one reachable nonzero index (`(1,2,1)`-core with mode
fiber `[1, 0]`), `m = 2`, `unique = true`, `max_rep = 0`:
with the actual module state the call raises `NameError('float_cf')` before any draw
(first conjunct); even if `float_cf` were bound to `None`, the uniqueness shortfall
reaches the self-retry, whose call passes `float_cf` as a keyword argument the
signature does not accept, raising `TypeError` instead of retrying or raising the
Insufficient-Unique-Samples error (second conjunct); the Insufficient-Unique-Samples
`ValueError` is reached only when the budget guard itself trips, e.g. for
`max_rep = -1` (third conjunct). -/
theorem C4_retry_exhaustion_code_bug :
    sample_ind_rand id module_float_cf (fun _ => 0) id [[[[1], [0]]]] 2 true 5 0 =
      .error (.nameError "float_cf", 0) ∧
    sample_ind_rand id (some none) (fun _ => 0) id [[[[1], [0]]]] 2 true 5 0 =
      .error (.typeErrorKw "float_cf", 10) ∧
    sample_ind_rand id (some none) (fun _ => 0) id [[[[1], [0]]]] 2 true 5 (-1) =
      .error (.insufficientUniqueSamples, 10) := by
  refine ⟨by norm_num [sample_ind_rand, module_float_cf], ?_, ?_⟩ <;>
    norm_num [sample_ind_rand, sampleFirst, firstPrep, reshape2, _sample_core_first, npChoiceN,
      choiceSupport, rowNorms2, _range, List.filter, initRows, dimLoop, sampleTail,
      npUniqueRows, List.dedup, List.pwFilter, truncReturn, List.range_succ]

lemma rowNorms2_nonneg (Q : Mat) : ∀ v ∈ rowNorms2 Q, 0 ≤ v := by
  intro v hv
  simp only [rowNorms2, List.mem_map] at hv
  obtain ⟨row, _, rfl⟩ := hv
  apply List.sum_nonneg
  intro t ht
  simp only [List.mem_map] at ht
  obtain ⟨u, _, rfl⟩ := ht
  exact mul_self_nonneg u

lemma choiceSupport_nil_of_sum_zero {w : Vec} (hnn : ∀ v ∈ w, 0 ≤ v) (hs : w.sum = 0) :
    choiceSupport w = [] := by
  unfold choiceSupport
  rw [List.filter_eq_nil_iff]
  intro i hi
  simp only [List.mem_range] at hi
  have hz : w.getD i 0 = 0 := by
    have hmem : w.getD i 0 ∈ w := by
      rw [List.getD_eq_getElem _ _ hi]
      exact List.getElem_mem _
    exact List.all_zero_of_le_zero_le_of_sum_eq_zero hnn hs hmem
  simp only [decide_eq_true_eq, not_lt]
  rw [hz]

lemma choiceSupport_ne_nil_of_sum_ne {w : Vec} (hnn : ∀ v ∈ w, 0 ≤ v) (hs : w.sum ≠ 0) :
    choiceSupport w ≠ [] := by
  intro hnil
  apply hs
  apply List.sum_eq_zero
  intro v hv
  obtain ⟨i, hi, rfl⟩ := List.mem_iff_getElem.mp hv
  by_contra hne
  have hpos : 0 < w[i] := lt_of_le_of_ne (hnn _ (List.getElem_mem _)) (Ne.symm hne)
  have hmem : i ∈ choiceSupport w := by
    unfold choiceSupport
    rw [List.mem_filter]
    refine ⟨List.mem_range.mpr hi, ?_⟩
    simp only [decide_eq_true_eq]
    rw [List.getD_eq_getElem _ _ hi]
    exact hpos
  rw [hnil] at hmem
  simp at hmem

lemma sample_core_first_degenerate (rng : Nat → Nat) (k : Nat) (Q I : Mat) (m thr : Nat)
    (hs : (rowNorms2 Q).sum = 0) :
    _sample_core_first rng k Q I m thr = .error (.degenerateDistribution, k) := by
  have hnil := choiceSupport_nil_of_sum_zero (rowNorms2_nonneg Q) hs
  unfold _sample_core_first npChoiceN
  simp [hnil]

lemma sampleRows_degenerate (rng : Nat → Nat) (di : Nat) :
    ∀ (pairs : List (Vec × Mat)) (k : Nat),
      (∀ p ∈ pairs, di < p.1.length) →
      (∃ p ∈ pairs, (rowNorms2 p.2).sum = 0) →
      ∃ kk, sampleRows rng di pairs k = .error (.degenerateDistribution, kk)
  | [], k, _, hex => by simp at hex
  | (im, qm) :: rest, k, hlen, hex => by
    by_cases hm : (rowNorms2 qm).sum = 0
    · refine ⟨k, ?_⟩
      have hnil := choiceSupport_nil_of_sum_zero (rowNorms2_nonneg qm) hm
      simp [sampleRows, npChoice1, hnil]
    · have hrest : ∃ p ∈ rest, (rowNorms2 p.2).sum = 0 := by
        rcases hex with ⟨p, hp, hps⟩
        rcases List.mem_cons.mp hp with rfl | hp2
        · exact absurd hps hm
        · exact ⟨p, hp2, hps⟩
      have hne := choiceSupport_ne_nil_of_sum_ne (rowNorms2_nonneg qm) hm
      have hlen0 : ¬(choiceSupport (rowNorms2 qm)).length = 0 := by
        simpa [List.length_eq_zero] using hne
      obtain ⟨kk, hkk⟩ := sampleRows_degenerate rng di rest (k + 1)
        (fun p hp => hlen p (List.mem_cons_of_mem _ hp)) hrest
      refine ⟨kk, ?_⟩
      have hdi : di < im.length := hlen (im, qm) (List.mem_cons_self _ _)
      simp [sampleRows, npChoice1, hne, hdi, hkk]

lemma sample_first_core_degenerate (orth : List Core → List Core)
    (float_cf : Option Nat) (rng : Nat → Nat) (shuffle : Mat → Mat) (Y : List Core)
    (m : Nat) (unique : Bool) (m_fact : Nat) (max_rep : Int) (Q0 : Mat)
    (hne : orth Y ≠ []) (hprep : firstPrep float_cf (orth Y).headI = .ok Q0)
    (hs : (rowNorms2 Q0).sum = 0) :
    sample_ind_rand orth (some float_cf) rng shuffle Y m unique m_fact max_rep =
      .error (.degenerateDistribution, 0) := by
  have h1 : sampleFirst float_cf rng (orth Y).headI m unique m_fact =
      .error (.degenerateDistribution, 0) := by
    unfold sampleFirst
    rw [hprep]
    exact sample_core_first_degenerate rng 0 Q0 (_range Q0.length) _ _ hs
  simp [sample_ind_rand, hne, h1]

/-- C5: a zero total squared-row-norm mass is a Degenerate-Distribution failure,
raised at once and never converted into a retry or a returned batch: (1) at the
first-core draw, `_sample_core_first` fails without consuming entropy; (2) in the
per-candidate loop of any later dimension, a zero-mass candidate slice makes the
whole pass fail with the same error; (3) at whole-call level, a zero-mass prepared
first core makes `sample_ind_rand` return exactly the Degenerate-Distribution
error, with no draws consumed, for any `float_cf` binding. -/
theorem C5_degenerate_distribution :
    (∀ (rng : Nat → Nat) (k : Nat) (Q I : Mat) (m thr : Nat),
      (rowNorms2 Q).sum = 0 →
      _sample_core_first rng k Q I m thr = .error (.degenerateDistribution, k)) ∧
    (∀ (rng : Nat → Nat) (di : Nat) (pairs : List (Vec × Mat)) (k : Nat),
      (∀ p ∈ pairs, di < p.1.length) →
      (∃ p ∈ pairs, (rowNorms2 p.2).sum = 0) →
      ∃ kk, sampleRows rng di pairs k = .error (.degenerateDistribution, kk)) ∧
    (∀ (orth : List Core → List Core) (float_cf : Option Nat) (rng : Nat → Nat)
      (shuffle : Mat → Mat) (Y : List Core) (m : Nat) (unique : Bool) (m_fact : Nat)
      (max_rep : Int) (Q0 : Mat),
      orth Y ≠ [] → firstPrep float_cf (orth Y).headI = .ok Q0 →
      (rowNorms2 Q0).sum = 0 →
      sample_ind_rand orth (some float_cf) rng shuffle Y m unique m_fact max_rep =
        .error (.degenerateDistribution, 0)) :=
  ⟨sample_core_first_degenerate,
   fun rng di pairs k h1 h2 => sampleRows_degenerate rng di pairs k h1 h2,
   fun orth fc rng sh Y m u mf mr Q0 h1 h2 h3 =>
     sample_first_core_degenerate orth fc rng sh Y m u mf mr Q0 h1 h2 h3⟩

/-- C5 witness: the three failure modes at concrete zero-mass inputs. -/
theorem C5_degenerate_distribution_witness :
    _sample_core_first (fun _ => 0) 0 [[0]] [[0]] 1 10 =
      .error (.degenerateDistribution, 0) ∧
    (∃ kk, sampleRows (fun _ => 0) 0 [([0], [[0]])] 0 =
      .error (.degenerateDistribution, kk)) ∧
    sample_ind_rand id (some none) (fun _ => 0) id [[[[0]]]] 1 true 5 100 =
      .error (.degenerateDistribution, 0) :=
  ⟨C5_degenerate_distribution.1 (fun _ => 0) 0 [[0]] [[0]] 1 10 (by norm_num [rowNorms2]),
   C5_degenerate_distribution.2.1 (fun _ => 0) 0 [([0], [[0]])] 0
     (by intro p hp; simp at hp; simp [hp])
     ⟨([0], [[0]]), by simp, by norm_num [rowNorms2]⟩,
   C5_degenerate_distribution.2.2 id none (fun _ => 0) id [[[[0]]]] 1 true 5 100 [[0]]
     (by simp)
     (by norm_num [firstPrep, reshape2, List.range_succ])
     (by norm_num [rowNorms2])⟩

lemma truncReturn_ok (fc : Option Nat) (m : Nat) (I : Mat) (k : Nat) (If : Mat)
    (kf : Nat) (h : truncReturn fc m I k = .ok (If, kf)) :
    If.length = m ∧ ∀ r ∈ If, ∃ r0 ∈ I, r.length = r0.length := by
  unfold truncReturn at h
  by_cases hlen : (I.take m).length ≠ m
  · rw [if_pos hlen] at h
    cases h
  · rw [if_neg hlen] at h
    push_neg at hlen
    rcases fc with _ | c
    · simp only [Except.ok.injEq, Prod.mk.injEq] at h
      obtain ⟨rfl, rfl⟩ := h
      refine ⟨hlen, ?_⟩
      intro r hr
      exact ⟨r, List.mem_of_mem_take hr, rfl⟩
    · simp only [Except.ok.injEq, Prod.mk.injEq] at h
      obtain ⟨rfl, rfl⟩ := h
      constructor
      · rw [List.length_map]
        exact hlen
      · intro r hr
        simp only [List.mem_map] at hr
        obtain ⟨r0, hr0, rfl⟩ := hr
        exact ⟨r0, List.mem_of_mem_take hr0, by simp⟩

lemma mem_npUniqueRows {M : Mat} {r : Vec} (h : r ∈ npUniqueRows M) : r ∈ M := by
  unfold npUniqueRows at h
  exact List.mem_dedup.mp ((List.perm_insertionSort _ M.dedup).mem_iff.mp h)

lemma sampleTail_ok (fc : Option Nat) (sh : Mat → Mat) (m : Nat) (unique : Bool)
    (m_fact : Nat) (max_rep : Int) (I : Mat) (k : Nat) (If : Mat) (kf : Nat)
    (hπ : ∀ l : Mat, (sh l).Perm l)
    (h : sampleTail fc sh m unique m_fact max_rep I k = .ok (If, kf)) :
    If.length = m ∧ ∀ r ∈ If, ∃ r0 ∈ I, r.length = r0.length := by
  unfold sampleTail at h
  cases unique with
  | false =>
    simp only [Bool.false_eq_true, if_false] at h
    exact truncReturn_ok fc m I k If kf h
  | true =>
    simp only [if_true] at h
    by_cases hlt : (npUniqueRows I).length < m
    · rw [if_pos hlt] at h
      split at h <;> cases h
    · rw [if_neg hlt] at h
      obtain ⟨h1, h2⟩ := truncReturn_ok fc m (sh (npUniqueRows I)) k If kf h
      refine ⟨h1, ?_⟩
      intro r hr
      obtain ⟨r0, hr0, hrl⟩ := h2 r hr
      exact ⟨r0, mem_npUniqueRows ((hπ (npUniqueRows I)).mem_iff.mp hr0), hrl⟩

lemma sampleRows_ok_rows (rng : Nat → Nat) (di : Nat) :
    ∀ (pairs : List (Vec × Mat)) (k : Nat) (Is Qs : Mat) (kf : Nat),
      sampleRows rng di pairs k = .ok ((Is, Qs), kf) →
      ∀ r ∈ Is, ∃ p ∈ pairs, r.length = p.1.length
  | [], k, Is, Qs, kf, h => by
    simp only [sampleRows, Except.ok.injEq, Prod.mk.injEq] at h
    obtain ⟨⟨rfl, rfl⟩, rfl⟩ := h
    intro r hr
    simp at hr
  | (im, qm) :: rest, k, Is, Qs, kf, h => by
    unfold sampleRows at h
    cases hc : npChoice1 rng k (rowNorms2 qm) with
    | error e => rw [hc] at h; cases h
    | ok jk =>
      rw [hc] at h
      obtain ⟨j, k1⟩ := jk
      simp only [] at h
      by_cases hdi : di < im.length
      · rw [if_pos hdi] at h
        cases hrec : sampleRows rng di rest k1 with
        | error e => rw [hrec] at h; cases h
        | ok v =>
          rw [hrec] at h
          obtain ⟨⟨Is2, Qs2⟩, k2⟩ := v
          simp only [Except.ok.injEq, Prod.mk.injEq] at h
          obtain ⟨⟨rfl, rfl⟩, rfl⟩ := h
          intro r hr
          rcases List.mem_cons.mp hr with rfl | hr2
          · exact ⟨(im, qm), List.mem_cons_self _ _, by simp⟩
          · obtain ⟨p, hp, hpl⟩ := sampleRows_ok_rows rng di rest k1 Is2 Qs2 k2 hrec r hr2
            exact ⟨p, List.mem_cons_of_mem _ hp, hpl⟩
      · rw [if_neg hdi] at h
        cases h

lemma dimStep_ok_rows (fc : Option Nat) (rng : Nat → Nat) (di : Nat) (G : Core)
    (I Q : Mat) (k : Nat) (I2 Q2 : Mat) (k2 : Nat) (d : Nat)
    (h : dimStep fc rng di G I Q k = .ok ((I2, Q2), k2))
    (hI : ∀ r ∈ I, r.length = d) : ∀ r ∈ I2, r.length = d := by
  simp only [dimStep] at h
  split at h
  · cases hr : sampleRows rng di
        (I.zip (Q.map fun qrow =>
          (List.range (match fc with
            | none => G.headI.length
            | some c => G.headI.length * c)).map fun i : Nat =>
            (List.range G.headI.headI.length).map fun q : Nat =>
              ((List.range (match fc with
                | none => G
                | some c => _extend_core G (G.headI.length * c)).length).map fun r : Nat =>
                qrow.getD r 0 * coreEntry (match fc with
                  | none => G
                  | some c => _extend_core G (G.headI.length * c)) r i q).sum)) k with
    | error e => rw [hr] at h; cases h
    | ok v =>
      rw [hr] at h
      obtain ⟨⟨Is, Qs⟩, k3⟩ := v
      simp only [Except.ok.injEq, Prod.mk.injEq] at h
      obtain ⟨⟨rfl, rfl⟩, rfl⟩ := h
      intro r hrm
      rcases List.mem_append.mp hrm with hin | hdrop
      · obtain ⟨p, hp, hpl⟩ := sampleRows_ok_rows rng di _ k Is Qs k3 hr r hin
        rw [hpl]
        exact hI _ (List.of_mem_zip hp).1
      · exact hI r (List.mem_of_mem_drop hdrop)
  · cases h

lemma dimLoop_ok_rows (fc : Option Nat) (rng : Nat → Nat) (d : Nat) :
    ∀ (steps : List (Nat × Core)) (I Q : Mat) (k : Nat) (I2 Q2 : Mat) (k2 : Nat),
      dimLoop fc rng steps I Q k = .ok ((I2, Q2), k2) →
      (∀ r ∈ I, r.length = d) → ∀ r ∈ I2, r.length = d
  | [], I, Q, k, I2, Q2, k2, h, hI => by
    simp only [dimLoop, Except.ok.injEq, Prod.mk.injEq] at h
    obtain ⟨⟨rfl, rfl⟩, rfl⟩ := h
    exact hI
  | (di, G) :: rest, I, Q, k, I2, Q2, k2, h, hI => by
    unfold dimLoop at h
    cases hs : dimStep fc rng di G I Q k with
    | error e => rw [hs] at h; cases h
    | ok v =>
      rw [hs] at h
      obtain ⟨⟨I1, Q1⟩, k1⟩ := v
      exact dimLoop_ok_rows fc rng d rest I1 Q1 k1 I2 Q2 k2 h
        (dimStep_ok_rows fc rng di G I Q k I1 Q1 k1 d hs hI)

lemma initRows_rows (d : Nat) (I1 : Mat) : ∀ r ∈ initRows d I1, r.length = d := by
  intro r hr
  simp only [initRows, List.mem_map] at hr
  obtain ⟨row, _, rfl⟩ := hr
  simp

/-- Inversion of a successful `sample_ind_rand` run: the environment binds
`float_cf`, the loop produced a `d`-wide index matrix, and the tail returned it. -/
lemma sample_ok_inv (orth : List Core → List Core) (env : Option (Option Nat))
    (rng : Nat → Nat) (sh : Mat → Mat) (Y : List Core) (m : Nat) (unique : Bool)
    (m_fact : Nat) (max_rep : Int) (If : Mat) (kf : Nat)
    (h : sample_ind_rand orth env rng sh Y m unique m_fact max_rep = .ok (If, kf)) :
    ∃ fc I k2, env = some fc ∧ (∀ r ∈ I, r.length = Y.length) ∧
      sampleTail fc sh m unique m_fact max_rep I k2 = .ok (If, kf) := by
  simp only [sample_ind_rand] at h
  by_cases hz : orth Y = []
  · rw [if_pos hz] at h
    cases h
  · rw [if_neg hz] at h
    rcases env with _ | fc
    · cases h
    · simp only [] at h
      cases hsf : sampleFirst fc rng (orth Y).headI m unique m_fact with
      | error e => rw [hsf] at h; cases h
      | ok v =>
        rw [hsf] at h
        obtain ⟨⟨Q1, I1⟩, k1⟩ := v
        simp only [] at h
        cases hdl : dimLoop fc rng (List.enumFrom 1 ((orth Y).drop 1))
            (initRows Y.length I1) Q1 k1 with
        | error e => rw [hdl] at h; cases h
        | ok v2 =>
          rw [hdl] at h
          simp only [] at h
          obtain ⟨⟨I, Qx⟩, k2⟩ := v2
          exact ⟨fc, I, k2, rfl,
            dimLoop_ok_rows fc rng Y.length _ _ _ _ _ _ _ hdl (initRows_rows _ _), h⟩

/-- C2: whenever `sample_ind_rand` returns normally — for any orthogonalizer, any
`float_cf` binding (including the actual unbound module state, where it never
returns), any entropy source and any permutation-realising shuffle — the returned
batch has exactly `m` rows and `d = len Y` columns; a shortfall surviving the retry
logic can only fail, never return a short batch. -/
theorem C2_exact_batch_shape (orth : List Core → List Core)
    (env : Option (Option Nat)) (rng : Nat → Nat) (sh : Mat → Mat) (Y : List Core)
    (m : Nat) (unique : Bool) (m_fact : Nat) (max_rep : Int) (If : Mat) (kf : Nat)
    (hπ : ∀ l : Mat, (sh l).Perm l)
    (h : sample_ind_rand orth env rng sh Y m unique m_fact max_rep = .ok (If, kf)) :
    If.length = m ∧ ∀ r ∈ If, r.length = Y.length := by
  obtain ⟨fc, I, k2, henv, hrows, htail⟩ :=
    sample_ok_inv orth env rng sh Y m unique m_fact max_rep If kf h
  obtain ⟨h1, h2⟩ := sampleTail_ok fc sh m unique m_fact max_rep I k2 If kf hπ htail
  refine ⟨h1, ?_⟩
  intro r hr
  obtain ⟨r0, hr0, hrl⟩ := h2 r hr
  rw [hrl]
  exact hrows r0 hr0

/-- C2 witness: a concrete successful run (one `(1,2,1)`-core, `m = 1`,
`float_cf` bound to `None`) returns one row of one column. -/
theorem C2_exact_batch_shape_witness :
    ([[(0 : ℚ)]] : Mat).length = 1 ∧
    ∀ r ∈ ([[(0 : ℚ)]] : Mat), r.length = ([[[[1], [0]]]] : List Core).length :=
  C2_exact_batch_shape id (some none) (fun _ => 0) id [[[[1], [0]]]] 1 true 5 100
    [[0]] 5 (fun l => List.Perm.refl l)
    (by norm_num [sample_ind_rand, sampleFirst, firstPrep, reshape2, _sample_core_first,
      npChoiceN, choiceSupport, rowNorms2, _range, List.filter, initRows, dimLoop,
      sampleTail, npUniqueRows, List.dedup, List.pwFilter, truncReturn, List.range_succ])

lemma npUniqueRows_nodup (M : Mat) : (npUniqueRows M).Nodup :=
  (List.perm_insertionSort _ M.dedup).symm.nodup (List.nodup_dedup M)

lemma truncReturn_ok_nodup (fc : Option Nat) (m : Nat) (I : Mat) (k : Nat) (If : Mat)
    (kf : Nat) (hc : fc ≠ some 0) (hI : I.Nodup)
    (h : truncReturn fc m I k = .ok (If, kf)) : If.Nodup := by
  unfold truncReturn at h
  by_cases hlen : (I.take m).length ≠ m
  · rw [if_pos hlen] at h
    cases h
  · rw [if_neg hlen] at h
    have htake : (I.take m).Nodup := (List.take_sublist m I).nodup hI
    rcases fc with _ | c
    · simp only [Except.ok.injEq, Prod.mk.injEq] at h
      obtain ⟨rfl, rfl⟩ := h
      exact htake
    · have hc0 : c ≠ 0 := fun hc2 => hc (by rw [hc2])
      have hcQ : (c : ℚ) ≠ 0 := Nat.cast_ne_zero.mpr hc0
      simp only [Except.ok.injEq, Prod.mk.injEq] at h
      obtain ⟨rfl, rfl⟩ := h
      refine List.Nodup.map ?_ htake
      exact List.map_injective_iff.mpr fun a b hab => by
        have h2 := congrArg (fun t : ℚ => t * (c : ℚ)) hab
        simpa [div_mul_cancel₀, hcQ] using h2

lemma sampleTail_ok_nodup (fc : Option Nat) (sh : Mat → Mat) (m : Nat)
    (m_fact : Nat) (max_rep : Int) (I : Mat) (k : Nat) (If : Mat) (kf : Nat)
    (hπ : ∀ l : Mat, (sh l).Perm l) (hc : fc ≠ some 0)
    (h : sampleTail fc sh m true m_fact max_rep I k = .ok (If, kf)) : If.Nodup := by
  unfold sampleTail at h
  simp only [if_true] at h
  by_cases hlt : (npUniqueRows I).length < m
  · rw [if_pos hlt] at h
    split at h <;> cases h
  · rw [if_neg hlt] at h
    exact truncReturn_ok_nodup fc m (sh (npUniqueRows I)) k If kf hc
      ((hπ (npUniqueRows I)).symm.nodup (npUniqueRows_nodup I)) h

/-- With `float_cf` bound to the number 0, the first mode collapses to size 0 and
the first categorical draw fails: the call can never return normally. -/
lemma sample_cf_zero_err (orth : List Core → List Core) (rng : Nat → Nat)
    (sh : Mat → Mat) (Y : List Core) (m : Nat) (unique : Bool) (m_fact : Nat)
    (max_rep : Int) (If : Mat) (kf : Nat) :
    sample_ind_rand orth (some (some 0)) rng sh Y m unique m_fact max_rep ≠
      .ok (If, kf) := by
  intro h
  simp only [sample_ind_rand] at h
  by_cases hz : orth Y = []
  · rw [if_pos hz] at h
    cases h
  · rw [if_neg hz] at h
    have hprep : firstPrep (some 0) (orth Y).headI = .ok [] := by
      simp [firstPrep, reshape2, _extend_core, List.flatten_eq_nil_iff]
    have hsf : sampleFirst (some 0) rng (orth Y).headI m unique m_fact =
        .error (.degenerateDistribution, 0) := by
      unfold sampleFirst
      rw [hprep]
      exact sample_core_first_degenerate rng 0 [] (_range ([] : Mat).length) _ _
        (by simp [rowNorms2])
    rw [hsf] at h
    cases h

/-- C3: whenever `sample_ind_rand` is called with `unique = true` and returns
normally — for any orthogonalizer, `float_cf` binding, entropy source and
permutation-realising shuffle — the returned rows are pairwise distinct. -/
theorem C3_unique_rows_distinct (orth : List Core → List Core)
    (env : Option (Option Nat)) (rng : Nat → Nat) (sh : Mat → Mat) (Y : List Core)
    (m : Nat) (m_fact : Nat) (max_rep : Int) (If : Mat) (kf : Nat)
    (hπ : ∀ l : Mat, (sh l).Perm l)
    (h : sample_ind_rand orth env rng sh Y m true m_fact max_rep = .ok (If, kf)) :
    If.Nodup := by
  obtain ⟨fc, I, k2, henv, hrows, htail⟩ :=
    sample_ok_inv orth env rng sh Y m true m_fact max_rep If kf h
  by_cases hc : fc = some 0
  · subst hc
    rw [henv] at h
    exact absurd h (sample_cf_zero_err orth rng sh Y m true m_fact max_rep If kf)
  · exact sampleTail_ok_nodup fc sh m m_fact max_rep I k2 If kf hπ hc htail

/-- C3 witness: the concrete successful `unique = true` run of the C2 scenario
returns pairwise-distinct rows. -/
theorem C3_unique_rows_distinct_witness : ([[(0 : ℚ)]] : Mat).Nodup :=
  C3_unique_rows_distinct id (some none) (fun _ => 0) id [[[[1], [0]]]] 1 5 100
    [[0]] 5 (fun l => List.Perm.refl l)
    (by norm_num [sample_ind_rand, sampleFirst, firstPrep, reshape2, _sample_core_first,
      npChoiceN, choiceSupport, rowNorms2, _range, List.filter, initRows, dimLoop,
      sampleTail, npUniqueRows, List.dedup, List.pwFilter, truncReturn, List.range_succ])

end Teneva
